import Mathlib

/-!
Verification of the company-data extraction engine of `src/app.py`
(CompanyDataExtractor and the InfoBase aggregation of DocumentProcessor).

Python strings are modelled as `List Char`.  The Python `re` usage of the
source (`re.findall` with IGNORECASE | MULTILINE | DOTALL over the pattern
tables, and the anchored `re.sub` calls of the cleaning pass) is modelled by
a small backtracking matcher over an explicit regex AST; the pattern tables
of `CompanyDataExtractor.__init__` are transcribed pattern by pattern.
MULTILINE and DOTALL are no-ops for the table patterns (no `^`, `$`, or bare
`.` occurs in them), so the matcher bakes in IGNORECASE only; for the
case-insensitive ASCII folding of Python `re` a character matches a literal
or class item when either the character or its case-swapped form does.
-/

namespace DocProc

set_option maxHeartbeats 1000000

/-- Whitespace set of Python `\s` and `str.strip` for ASCII input. -/
def isPyWs (c : Char) : Bool :=
  c = ' ' || c = '\t' || c = '\n' || c = '\r' || c = '\x0b' || c = '\x0c'

/-- Python ASCII lowercasing of a single character (`str.lower`). -/
def lowA (c : Char) : Char := c.toLower

/-- Python ASCII uppercasing of a single character (`str.upper`). -/
def upA (c : Char) : Char := c.toUpper

/-- Case-swap used for the IGNORECASE folding of the matcher. -/
def swapA (c : Char) : Char :=
  if c.isUpper then c.toLower else if c.isLower then c.toUpper else c

def isDigitC (c : Char) : Bool := '0' ≤ c && c ≤ '9'

def isUpperAZ (c : Char) : Bool := 'A' ≤ c && c ≤ 'Z'

def isAlphaC (c : Char) : Bool := ('A' ≤ c && c ≤ 'Z') || ('a' ≤ c && c ≤ 'z')

/-- Word character of `\b` (`\w` for ASCII input). -/
def isWordC (c : Char) : Bool := isAlphaC c || isDigitC c || c = '_'

/-- Remove trailing Python whitespace. -/
def dropTrail (l : List Char) : List Char := (l.reverse.dropWhile isPyWs).reverse

/-- Python `str.strip()`. -/
def pstrip (l : List Char) : List Char := dropTrail (l.dropWhile isPyWs)

/-- Python `str.lower()` on ASCII. -/
def lowerL (l : List Char) : List Char := l.map lowA

/-- Abbreviation turning a Lean string literal into the model type. -/
def tl (s : String) : List Char := s.toList

/-! ## Regex AST and backtracking matcher -/

/-- One item of a character class. -/
inductive CI where
  | ch (c : Char)
  | rg (lo hi : Char)
  | wsi
deriving DecidableEq

/-- Does a class item accept a character (no case folding here)? -/
def ciHit : CI → Char → Bool
  | .ch a, c => a = c
  | .rg lo hi, c => lo ≤ c && c ≤ hi
  | .wsi, c => isPyWs c

/-- Class membership with the IGNORECASE folding of Python `re`:
a character is accepted when it or its case-swapped form hits an item;
`neg` builds a negated class (`[^...]`). `cls true []` is `[\s\S]`. -/
def clsHit (neg : Bool) (its : List CI) (c : Char) : Bool :=
  let b := its.any (fun it => ciHit it c || ciHit it (swapA c))
  if neg then !b else b

/-- Regex AST: the constructs occurring in the source patterns.
Counted repetitions are expanded at construction time, so only greedy and
lazy Kleene stars remain as loops. -/
inductive RE where
  | eps
  | cls (neg : Bool) (its : List CI)
  | cat (a b : RE)
  | alt (a b : RE)
  | star (r : RE)
  | starL (r : RE)
  | grp (n : Nat) (r : RE)
  | wb

/-- Captured groups, most recent write first. -/
abbrev Caps := List (Nat × List Char)

/-- `\b`: the previous and next characters disagree on wordness. -/
def wordBd (prev : Option Char) (s : List Char) : Bool :=
  (match prev with | some c => isWordC c | none => false)
    != (match s.head? with | some c => isWordC c | none => false)

/-- Backtracking matcher in continuation-passing style.  Successes are
explored in the priority order of Python `re` (left alternative first,
greedy star longest first, lazy star shortest first); `prev` is the
character before the current position (for `\b`).  The fuel bounds the
recursion depth and is chosen large enough by the callers; star bodies
must consume input to iterate, which matches Python for the source
patterns (none has a nullable repeated body). -/
def mtch : Nat → RE → List Char → Option Char → Caps →
    (List Char → Option Char → Caps → Option (List Char × Caps)) →
    Option (List Char × Caps)
  | 0, _, _, _, _, _ => none
  | f + 1, re, s, prev, caps, k =>
    match re with
    | .eps => k s prev caps
    | .cls n its =>
      match s with
      | [] => none
      | c :: rest => if clsHit n its c then k rest (some c) caps else none
    | .cat a b => mtch f a s prev caps (fun s1 p1 c1 => mtch f b s1 p1 c1 k)
    | .alt a b => (mtch f a s prev caps k) <|> (mtch f b s prev caps k)
    | .star r =>
      (mtch f r s prev caps (fun s1 p1 c1 =>
        if s1.length < s.length then mtch f (.star r) s1 p1 c1 k else k s1 p1 c1))
        <|> k s prev caps
    | .starL r =>
      (k s prev caps) <|>
        (mtch f r s prev caps (fun s1 p1 c1 =>
          if s1.length < s.length then mtch f (.starL r) s1 p1 c1 k else none))
    | .grp n r =>
      mtch f r s prev caps (fun s1 p1 c1 =>
        k s1 p1 ((n, s.take (s.length - s1.length)) :: c1))
    | .wb => if wordBd prev s then k s prev caps else none

/-- Node count of a regex, used to size the fuel. -/
def reSz : RE → Nat
  | .eps => 1
  | .cls _ _ => 1
  | .cat a b => reSz a + reSz b + 1
  | .alt a b => reSz a + reSz b + 1
  | .star r => reSz r + 1
  | .starL r => reSz r + 1
  | .grp _ r => reSz r + 1
  | .wb => 1

def fuelFor (re : RE) (s : List Char) : Nat := (s.length + 2) * (reSz re + 4)

/-- Leftmost search: try a match at every position from left to right,
as Python `re` does; returns (text before the match, matched text,
text after the match, captures). -/
def trySearch (re : RE) : List Char → Option Char → List Char →
    Option (List Char × List Char × List Char × Caps)
  | preRev, prev, s =>
    match mtch (fuelFor re s) re s prev [] (fun rest _ c => some (rest, c)) with
    | some (rest, caps) =>
      some (preRev.reverse, s.take (s.length - rest.length), rest, caps)
    | none =>
      match s with
      | [] => none
      | c :: s2 => trySearch re (c :: preRev) (some c) s2

/-- What `re.findall(...)[0]` is in Python: a plain string for zero or one
capture group, a tuple of group strings for two or more. -/
inductive MRes where
  | str (s : List Char)
  | tup (gs : List (List Char))
deriving DecidableEq

/-- A table pattern: its regex and its number of capture groups. -/
structure Pat where
  re : RE
  ng : Nat

/-- Captured text of group `i` (empty when the group did not take part). -/
def capGet (caps : Caps) (i : Nat) : List Char :=
  ((caps.find? (fun p => p.1 = i)).map (fun p => p.2)).getD []

/-- First element of Python `re.findall(pattern, text)` (with the flags of
`_extract_field`), or `none` when there is no match; `re.findall` is
nonempty exactly when the leftmost search succeeds. -/
def findallHead (p : Pat) (t : List Char) : Option MRes :=
  match trySearch p.re [] none t with
  | none => none
  | some (_, m, _, caps) =>
    some (if p.ng = 0 then .str m
      else if p.ng = 1 then .str (capGet caps 1)
      else .tup ((List.range p.ng).map (fun i => capGet caps (i + 1))))

/-- `re.sub(pattern, repl, s)` for a fixed replacement string: replace the
leftmost match and continue after it.  The fuel is the input length plus
one; every pattern this is used with consumes at least one character per
match, and an empty match conservatively copies one character. -/
def subAll : Nat → RE → List Char → List Char → List Char
  | 0, _, _, s => s
  | f + 1, re, repl, s =>
    match trySearch re [] none s with
    | none => s
    | some (pre, m, rest, _) =>
      pre ++ repl ++
        (if m.isEmpty then
          (match rest with
           | [] => []
           | c :: r2 => c :: subAll f re repl r2)
         else subAll f re repl rest)

/-! ## Regex construction helpers -/

/-- A single literal character (case folding happens at match time). -/
def rchar (c : Char) : RE := .cls false [.ch c]

def seqOf : List RE → RE
  | [] => .eps
  | [r] => r
  | r :: rs => .cat r (seqOf rs)

/-- Literal word: a sequence of literal characters. -/
def rstr (s : String) : RE := seqOf (s.toList.map rchar)

/-- Ordered alternation, left alternative first as in Python. -/
def altOf : List RE → RE
  | [] => .cls false []
  | [r] => r
  | r :: rs => .alt r (altOf rs)

/-- Exactly `n` copies (`{n}`). -/
def repN (r : RE) : Nat → RE
  | 0 => .eps
  | n + 1 => .cat r (repN r n)

/-- Up to `n` copies, greedy, longest first (`{0,n}`). -/
def upTo (r : RE) : Nat → RE
  | 0 => .eps
  | n + 1 => .alt (.cat r (upTo r n)) .eps

/-- `{n,}`: at least `n`, greedy. -/
def atLeast (r : RE) (n : Nat) : RE := .cat (repN r n) (.star r)

/-- `{lo,hi}`: greedy. -/
def between (r : RE) (lo hi : Nat) : RE := .cat (repN r lo) (upTo r (hi - lo))

/-- `?`: greedy option. -/
def ropt (r : RE) : RE := .alt r .eps

/-! Character classes used by the pattern tables. -/

def dC : RE := .cls false [.rg '0' '9']
def wsC : RE := .cls false [.wsi]
/-- `[\s\n]` (equal to `\s` as a set). -/
def wsnC : RE := .cls false [.wsi, .ch '\n']
/-- `[:\s]`. -/
def colWs : RE := .cls false [.ch ':', .wsi]
/-- `[^\n\r]`. -/
def notNl : RE := .cls true [.ch '\n', .ch '\r']
/-- `[^\n\r,0-9]`. -/
def notNlC : RE := .cls true [.ch '\n', .ch '\r', .ch ',', .rg '0' '9']
/-- `[\s\S]`: any character. -/
def anyC : RE := .cls true []
/-- `[A-Z]`. -/
def azU : RE := .cls false [.rg 'A' 'Z']
/-- `[A-Z0-9]`. -/
def az09 : RE := .cls false [.rg 'A' 'Z', .rg '0' '9']
/-- `[A-Z\s]`. -/
def azWs : RE := .cls false [.rg 'A' 'Z', .wsi]
/-- `[A-Z\s&\.]`. -/
def azName : RE := .cls false [.rg 'A' 'Z', .wsi, .ch '&', .ch '.']
/-- `[0-9\s\-\+\.\(\)]`. -/
def telC : RE := .cls false [.rg '0' '9', .wsi, .ch '-', .ch '+', .ch '.', .ch '(', .ch ')']
/-- `[a-zA-Z0-9._%+-]`. -/
def emailLoc : RE :=
  .cls false [.rg 'a' 'z', .rg 'A' 'Z', .rg '0' '9', .ch '.', .ch '_', .ch '%', .ch '+', .ch '-']
/-- `[a-zA-Z0-9.-]`. -/
def emailDom : RE := .cls false [.rg 'a' 'z', .rg 'A' 'Z', .rg '0' '9', .ch '.', .ch '-']
/-- `[a-zA-Z]`. -/
def alphaC : RE := .cls false [.rg 'a' 'z', .rg 'A' 'Z']
/-- `[\s\-]`. -/
def wsDash : RE := .cls false [.wsi, .ch '-']
/-- `[0-9.,]`. -/
def capSocC : RE := .cls false [.rg '0' '9', .ch '.', .ch ',']

/-- `[a-zA-Z0-9._%+-]+@[a-zA-Z0-9.-]+\.[a-zA-Z]{2,}` (the e-mail body). -/
def emailRe : RE :=
  seqOf [atLeast emailLoc 1, rchar '@', atLeast emailDom 1, rchar '.', atLeast alphaC 2]

/-- `[a-zA-Z0-9.-]+\.[a-zA-Z]{2,}` (the web-site body). -/
def siteRe : RE := seqOf [atLeast emailDom 1, rchar '.', atLeast alphaC 2]

/-- `(?:SPA|SRL|SNC|SAS|SRLS|S\.P\.A\.|S\.R\.L\.|S\.N\.C\.|S\.A\.S\.|S\.R\.L\.S\.)?`. -/
def legalSfx : RE :=
  ropt (altOf [rstr "SPA", rstr "SRL", rstr "SNC", rstr "SAS", rstr "SRLS",
    rstr "S.P.A.", rstr "S.R.L.", rstr "S.N.C.", rstr "S.A.S.", rstr "S.R.L.S."])

/-- `[A-Z][A-Z\s&\.]+(?:...)?`, the company-name body of the
ragione_sociale patterns. -/
def nameBody : RE := seqOf [azU, atLeast azName 1, legalSfx]

/-! ## The pattern table of `CompanyDataExtractor.__init__`
(`self.patterns`, in dict insertion order, one `Pat` per regex). -/

def patsPartitaIva : List Pat :=
  [ ⟨seqOf [rstr "PARTITA", atLeast wsC 1, rstr "IVA", .star wsnC, .grp 1 (repN dC 11)], 1⟩,
    ⟨seqOf [rchar 'P', ropt (rchar '.'), .star wsC, rstr "IVA", .star colWs,
      .grp 1 (repN dC 11)], 1⟩,
    ⟨seqOf [rstr "Partita", atLeast wsC 1, rstr "IVA", .star colWs, .grp 1 (repN dC 11)], 1⟩,
    ⟨seqOf [rstr "P.I.", .star colWs, .grp 1 (repN dC 11)], 1⟩,
    ⟨seqOf [rstr "VAT", .star colWs, .grp 1 (repN dC 11)], 1⟩ ]

def patsCodiceFiscale : List Pat :=
  [ ⟨seqOf [rstr "CODICE", atLeast wsC 1, rstr "FISCALE", .star wsnC,
      .grp 1 (between az09 11 16)], 1⟩,
    ⟨seqOf [rchar 'C', ropt (rchar '.'), .star wsC, rchar 'F', ropt (rchar '.'),
      .star colWs, .grp 1 (between az09 11 16)], 1⟩,
    ⟨seqOf [rstr "Codice", atLeast wsC 1, rstr "Fiscale", .star colWs,
      .grp 1 (between az09 11 16)], 1⟩,
    ⟨seqOf [rstr "CF", .star colWs, .grp 1 (between az09 11 16)], 1⟩ ]

def patsRagioneSociale : List Pat :=
  [ ⟨seqOf [rstr "Cribis", atLeast wsC 1, rstr "Check", .starL anyC, rchar '\n',
      .grp 1 nameBody, rchar '\n'], 1⟩,
    ⟨seqOf [rstr "Basic", atLeast wsnC 1, .grp 1 nameBody, rchar '\n'], 1⟩,
    ⟨seqOf [rstr "Ragione", atLeast wsC 1, rstr "Sociale", .star colWs,
      .grp 1 (atLeast notNl 1)], 1⟩,
    ⟨seqOf [rstr "Denominazione", .star colWs, .grp 1 (atLeast notNl 1)], 1⟩,
    ⟨seqOf [rstr "Ditta", .star colWs, .grp 1 (atLeast notNl 1)], 1⟩,
    ⟨seqOf [rstr "Società", .star colWs, .grp 1 (atLeast notNl 1)], 1⟩,
    ⟨seqOf [rchar '\n', .grp 1 nameBody, rchar '\n'], 1⟩ ]

def patsSedeLegale : List Pat :=
  [ ⟨seqOf [rstr "SEDE", atLeast wsC 1, rstr "LEGALE", .star wsnC,
      .grp 1 (atLeast notNl 1)], 1⟩,
    ⟨seqOf [rstr "Sede", atLeast wsC 1, rstr "legale", .star colWs,
      .grp 1 (atLeast notNl 1)], 1⟩,
    ⟨seqOf [rstr "CORSO", atLeast wsC 1, atLeast azWs 1, atLeast dC 1, .star notNl], 0⟩,
    ⟨seqOf [rstr "VIA", atLeast wsC 1, atLeast azWs 1, atLeast dC 1, .star notNl], 0⟩,
    ⟨seqOf [rstr "Indirizzo", .star colWs, .grp 1 (atLeast notNl 1)], 1⟩,
    ⟨seqOf [rstr "Domicilio", .star colWs, .grp 1 (atLeast notNl 1)], 1⟩ ]

def patsSedeAmm : List Pat :=
  [ ⟨seqOf [rstr "SEDE", atLeast wsC 1, rstr "AMMINISTRATIVA", .star wsnC,
      .grp 1 (atLeast notNl 1)], 1⟩,
    ⟨seqOf [rstr "Sede", atLeast wsC 1, rstr "amministrativa", .star colWs,
      .grp 1 (atLeast notNl 1)], 1⟩ ]

def patsCap : List Pat :=
  [ ⟨seqOf [rstr "CAP", .star colWs, .grp 1 (repN dC 5)], 1⟩,
    ⟨seqOf [.wb, .grp 1 (repN dC 5), .wb], 1⟩ ]

def patsCitta : List Pat :=
  [ ⟨seqOf [rstr "Città", .star colWs, .grp 1 (atLeast notNlC 1)], 1⟩,
    ⟨seqOf [rstr "Comune", .star colWs, .grp 1 (atLeast notNlC 1)], 1⟩,
    ⟨seqOf [rstr "Località", .star colWs, .grp 1 (atLeast notNlC 1)], 1⟩,
    ⟨seqOf [.grp 1 (repN dC 5), atLeast wsC 1, .grp 2 (seqOf [azU, atLeast azWs 1]),
      atLeast wsC 1, rchar '(', repN azU 2, rchar ')'], 2⟩ ]

def patsProvincia : List Pat :=
  [ ⟨seqOf [rstr "Provincia", .star colWs, .grp 1 (repN azU 2)], 1⟩,
    ⟨seqOf [rstr "Prov", ropt (rchar '.'), .star colWs, .grp 1 (repN azU 2)], 1⟩,
    ⟨seqOf [rchar '(', .grp 1 (repN azU 2), rchar ')'], 1⟩ ]

def patsTelefono : List Pat :=
  [ ⟨seqOf [rstr "TELEFONO", .star wsnC, .grp 1 (atLeast dC 10)], 1⟩,
    ⟨seqOf [rstr "Tel", ropt (rchar '.'), .star colWs, .grp 1 (atLeast telC 1)], 1⟩,
    ⟨seqOf [rstr "Telefono", .star colWs, .grp 1 (atLeast telC 1)], 1⟩,
    ⟨seqOf [rstr "Phone", .star colWs, .grp 1 (atLeast telC 1)], 1⟩ ]

def patsFax : List Pat :=
  [ ⟨seqOf [rstr "FAX", .star wsnC, .grp 1 (atLeast dC 10)], 1⟩,
    ⟨seqOf [rstr "Fax", .star colWs, .grp 1 (atLeast telC 1)], 1⟩ ]

def patsEmail : List Pat :=
  [ ⟨seqOf [rstr "EMAIL", .star wsnC, .grp 1 emailRe], 1⟩,
    ⟨.grp 1 emailRe, 1⟩,
    ⟨seqOf [rstr "E-mail", .star colWs, .grp 1 emailRe], 1⟩,
    ⟨seqOf [rstr "Email", .star colWs, .grp 1 emailRe], 1⟩ ]

def patsEmailCert : List Pat :=
  [ ⟨seqOf [rstr "EMAIL", atLeast wsC 1, rstr "CERTIFICATA", .star wsnC,
      .grp 1 emailRe], 1⟩ ]

def patsSitoWeb : List Pat :=
  [ ⟨seqOf [rstr "SITO", atLeast wsC 1, rstr "WEB", .star wsnC, .grp 1 siteRe], 1⟩,
    ⟨seqOf [rstr "www.", .star wsC, .grp 1 siteRe], 1⟩ ]

def patsNatura : List Pat :=
  [ ⟨seqOf [rstr "NATURA", atLeast wsC 1, rstr "GIURIDICA", .star wsnC,
      .grp 1 (atLeast notNl 1)], 1⟩,
    ⟨seqOf [rstr "Forma", atLeast wsC 1, rstr "giuridica", .star colWs,
      .grp 1 (atLeast notNl 1)], 1⟩ ]

def patsAteco : List Pat :=
  [ ⟨seqOf [rstr "ATECO", atLeast wsC 1, repN dC 4, .star wsnC, .grp 1 (repN dC 6),
      atLeast wsC 1, .grp 2 (atLeast notNl 1)], 2⟩,
    ⟨seqOf [rstr "Codice", atLeast wsC 1, rstr "ATECO", .star colWs, .grp 1 (repN dC 6)], 1⟩ ]

def patsPec : List Pat :=
  [ ⟨seqOf [rstr "PEC", .star colWs, .grp 1 emailRe], 1⟩,
    ⟨seqOf [rstr "Posta", atLeast wsC 1, rstr "certificata", .star colWs,
      .grp 1 emailRe], 1⟩ ]

def patsRea : List Pat :=
  [ ⟨seqOf [rstr "REA", .star colWs,
      .grp 1 (seqOf [repN azU 2, .star wsDash, atLeast dC 1])], 1⟩,
    ⟨seqOf [rstr "Registro", atLeast wsC 1, rstr "Imprese", .star colWs,
      .grp 1 (seqOf [repN azU 2, .star wsDash, atLeast dC 1])], 1⟩ ]

def patsCapSociale : List Pat :=
  [ ⟨seqOf [rstr "Capitale", atLeast wsC 1, rstr "sociale", .star colWs,
      ropt (rchar '€'), .star wsC, .grp 1 (atLeast capSocC 1)], 1⟩,
    ⟨seqOf [rstr "Cap.", atLeast wsC 1, rstr "soc", ropt (rchar '.'), .star colWs,
      ropt (rchar '€'), .star wsC, .grp 1 (atLeast capSocC 1)], 1⟩,
    ⟨seqOf [rstr "Capitale", .star colWs, ropt (rchar '€'), .star wsC,
      .grp 1 (atLeast capSocC 1)], 1⟩ ]

/-- `self.patterns`: field name to ordered pattern list, in the dict
insertion order of the source. -/
def patternsTable : List (String × List Pat) :=
  [ ("partita_iva", patsPartitaIva),
    ("codice_fiscale", patsCodiceFiscale),
    ("ragione_sociale", patsRagioneSociale),
    ("sede_legale", patsSedeLegale),
    ("sede_amministrativa", patsSedeAmm),
    ("cap", patsCap),
    ("citta", patsCitta),
    ("provincia", patsProvincia),
    ("telefono", patsTelefono),
    ("fax", patsFax),
    ("email", patsEmail),
    ("email_certificata", patsEmailCert),
    ("sito_web", patsSitoWeb),
    ("natura_giuridica", patsNatura),
    ("ateco", patsAteco),
    ("pec", patsPec),
    ("rea", patsRea),
    ("capitale_sociale", patsCapSociale) ]

/-! ## `_normalize_text` -/

/-- `[ \t]+`. -/
def reSpT : RE := .cat (.cls false [.ch ' ', .ch '\t']) (.star (.cls false [.ch ' ', .ch '\t']))
/-- `\r`. -/
def reCr : RE := rchar '\r'
/-- `\n\s*\n`. -/
def reBlank : RE := seqOf [rchar '\n', .star wsC, rchar '\n']

/-- `CompanyDataExtractor._normalize_text`: collapse horizontal whitespace
runs, turn carriage returns into newlines, collapse blank-line runs, and
strip the whole text. -/
def normalize_text (t : List Char) : List Char :=
  let t1 := subAll (t.length + 1) reSpT [' '] t
  let t2 := subAll (t1.length + 1) reCr ['\n'] t1
  let t3 := subAll (t2.length + 1) reBlank ['\n'] t2
  pstrip t3

/-! ## `_extract_field` -/

/-- The group scan of the tuple branch: Python
`for group in matches[0]: if group and group.strip(): return group.strip()`. -/
def firstGoodGroup : List (List Char) → Option (List Char)
  | [] => none
  | g :: gs => if g ≠ [] ∧ pstrip g ≠ [] then some (pstrip g) else firstGoodGroup gs

/-- `CompanyDataExtractor._extract_field`: iterate the patterns in order;
on the first pattern whose `findall` is nonempty, a tuple result returns
the first group with nonempty stripped content (falling through to the
next pattern when no group qualifies), a string result returns the
stripped first match unconditionally; `none` when the list is exhausted. -/
def extract_field (text : List Char) : List Pat → Option (List Char)
  | [] => none
  | p :: ps =>
    match findallHead p text with
    | none => extract_field text ps
    | some (.str m) => some (pstrip m)
    | some (.tup gs) =>
      match firstGoodGroup gs with
      | some g => some g
      | none => extract_field text ps

/-! ## `_clean_extracted_data` -/

/-- Infix (substring) test, Python `w in s`. -/
def isSubL (w : List Char) : List Char → Bool
  | [] => w.isEmpty
  | c :: rest => isPreL w (c :: rest) || isSubL w rest
where
  isPreL : List Char → List Char → Bool
    | [], _ => true
    | _ :: _, [] => false
    | a :: as_, b :: bs => a = b && isPreL as_ bs

/-- Case-insensitive (ASCII-folded) list equality on a proper head. -/
def ciIsPre : List Char → List Char → Bool
  | [], _ => true
  | _ :: _, [] => false
  | a :: as_, b :: bs => lowA a = lowA b && ciIsPre as_ bs

/-- Does the list start with a Python whitespace character? -/
def wsHead : List Char → Bool
  | [] => false
  | c :: _ => isPyWs c

def boilerWords : List (List Char) := [tl "Basic", tl "Cribis Check", tl "Report"]

/-- `re.sub(r'^(Basic|Cribis Check|Report)\s+', '', v, flags=re.IGNORECASE)`:
the match is anchored at the start, the alternatives share no prefixes, and
the greedy `\s+` takes the maximal whitespace run after the word. -/
def boilerDropPre (v : List Char) : List Char :=
  match boilerWords.find? (fun w => ciIsPre w v && wsHead (v.drop w.length)) with
  | some w => (v.drop w.length).dropWhile isPyWs
  | none => v

/-- Apply a rewrite under Python `$` semantics without MULTILINE: a final
newline is kept outside the rewritten text. -/
def withEol (f : List Char → List Char) (v : List Char) : List Char :=
  match v.getLast? with
  | some c => if c = '\n' then f v.dropLast ++ ['\n'] else f v
  | none => f v

/-- Core of `re.sub(r'\s+(Basic|Cribis Check|Report)$', '', v, re.IGNORECASE)`
against an absolute end: the word must abut the end, preceded by at least
one whitespace character, and the leftmost match takes the maximal run. -/
def boilerDropSufCore (u : List Char) : List Char :=
  let r := u.reverse
  match boilerWords.find? (fun w => ciIsPre w.reverse r && wsHead (r.drop w.length)) with
  | some w => ((r.drop w.length).dropWhile isPyWs).reverse
  | none => u

def boilerDropSuf (v : List Char) : List Char := withEol boilerDropSufCore v

/-- Label words of the e-mail cleaning sub, longest first so that the
leftmost match of the overlapping alternatives wins. -/
def emailLabelWords : List (List Char) := [tl "E-MAIL", tl "EMAIL", tl "MAIL"]

/-- `re.sub(r'(EMAIL|MAIL|E-MAIL)\s*$', '', v, flags=re.IGNORECASE)`: a label
word followed only by whitespace up to the end is removed together with that
trailing whitespace (the greedy `\s*` reaches the absolute end, so a final
newline is consumed by the match as well). -/
def emailLabelDrop (v : List Char) : List Char :=
  let r := v.reverse
  let rest := r.dropWhile isPyWs
  match emailLabelWords.find? (fun w => ciIsPre w.reverse rest) with
  | some w => (rest.drop w.length).reverse
  | none => v

/-- `re.split(r'[\s,;]', v)[0]`. -/
def isSplitC (c : Char) : Bool := isPyWs c || c = ',' || c = ';'

/-- `re.sub(r'\s+', ' ', v)`: collapse every whitespace run to one space. -/
def collapseGo : Bool → List Char → List Char
  | _, [] => []
  | prevWs, c :: rest =>
    if isPyWs c then
      (if prevWs then collapseGo true rest else ' ' :: collapseGo true rest)
    else c :: collapseGo false rest

def collapseWs (l : List Char) : List Char := collapseGo false l

def noiseWords : List (List Char) :=
  [tl "sezione", tl "contiene", tl "dettaglio", tl "numero", tl "addetti"]

/-- The per-key branch of `_clean_extracted_data` (lines 181-236): `some`
with the cleaned value when the field is kept, `none` when it is rejected.
The branch order mirrors the elif chain, including the unreachable
membership of "email" in the late `['email', 'pec']` test. -/
def cleanPair (key : String) (v : List Char) : Option (List Char) :=
  if key = "ragione_sociale" then
    some (pstrip (boilerDropSuf (boilerDropPre v)))
  else if key = "partita_iva" then
    let cv := v.filter isDigitC
    if cv.length = 11 then some cv else none
  else if key = "codice_fiscale" then
    let cv := (v.map upA).filter (fun c => isUpperAZ c || isDigitC c)
    if cv.length = 11 ∨ cv.length = 16 then some cv else none
  else if key = "cap" then
    let cv := v.filter isDigitC
    if cv.length = 5 then some cv else none
  else if key = "provincia" then
    let cv := pstrip (v.map upA)
    if cv.length = 2 ∧ cv.all isAlphaC then some cv else none
  else if key = "email" then
    let c3 := (emailLabelDrop (pstrip v)).takeWhile (fun c => !isSplitC c)
    if c3.contains '@' ∧ c3.contains '.' then some c3 else none
  else if key = "citta" then
    let cv := pstrip v
    if noiseWords.any (fun w => isSubL w (lowerL cv)) then none else some cv
  else if key = "telefono" then
    let cv := v.filter (fun c => isDigitC c || c = '+')
    if 6 ≤ cv.length then some cv else none
  else if key = "email" ∨ key = "pec" then
    if v.contains '@' ∧ v.contains '.' then some (pstrip (lowerL v)) else none
  else
    let cv := pstrip (collapseWs v)
    if cv = [] then none else some cv

/-- `CompanyDataExtractor._clean_extracted_data`: keep the iteration order,
skip missing and empty values, and apply the per-key branch. -/
def clean_extracted_data : List (String × Option (List Char)) → List (String × List Char)
  | [] => []
  | (_, none) :: rest => clean_extracted_data rest
  | (k, some v) :: rest =>
    if v = [] then clean_extracted_data rest
    else
      match cleanPair k v with
      | some w => (k, w) :: clean_extracted_data rest
      | none => clean_extracted_data rest

/-- `CompanyDataExtractor.extract_company_info`: normalize once, run the
matcher for every field of the table, then clean. -/
def extract_company_info (text : List Char) : List (String × List Char) :=
  let normalized := normalize_text text
  clean_extracted_data
    (patternsTable.map (fun kv => (kv.1, extract_field normalized kv.2)))

/-! ## `DocumentProcessor`: InfoBase aggregation and session state -/

/-- A document entry; only the pieces the modelled operations look at. -/
structure Document where
  docId : Nat
  filename : List Char
deriving DecidableEq

/-- One record of `InfoBase["extracted_companies"]`. -/
structure CompanyRecord where
  source_document : List Char
  extracted_at : Nat
  company_data : List (String × List Char)
deriving DecidableEq

/-- The `InfoBase` dict. -/
structure InfoBase where
  extracted_companies : List CompanyRecord
  total_documents : Nat
  last_updated : Nat
deriving DecidableEq

/-- The `self.transcripts` dict; `clear_session` rebuilds it without an
`InfoBase` key, hence the option. -/
structure Transcripts where
  infoBase : Option InfoBase
  documents : List Document
  session_id : Nat
deriving DecidableEq

/-- `DocumentProcessor._update_info_base` on a state whose `InfoBase` key is
present (as `load_transcripts` guarantees): append a record when the field
map is truthy and has a truthy value, then always rewrite the counters.
Timestamps (`datetime.now`) are an explicit `now` parameter. -/
def update_info_base (now : Nat) (company_info : List (String × List Char))
    (filename : List Char) (ib : InfoBase) (documents : List Document) : InfoBase :=
  let ib1 :=
    if company_info ≠ [] ∧ company_info.any (fun kv => kv.2 ≠ []) then
      { ib with extracted_companies :=
          ib.extracted_companies ++ [⟨filename, now, company_info⟩] }
    else ib
  { ib1 with total_documents := documents.length, last_updated := now }

/-- `DocumentProcessor.clear_session`: replace the transcripts with a fresh
dict holding only an empty document list and a new uuid (modelled as the
explicit `newId` parameter); the rebuilt dict has no `InfoBase` key. -/
def clear_session (newId : Nat) (_ts : Transcripts) : Transcripts :=
  { infoBase := none, documents := [], session_id := newId }

/-- The company records visible in a transcript state. -/
def companyRecords (ts : Transcripts) : List CompanyRecord :=
  match ts.infoBase with
  | none => []
  | some ib => ib.extracted_companies

/-! ## Specification-side reading of the matcher (for the refinement claims) -/

/-- Head, last and nonemptiness facts packaged: a nonempty list that starts
and ends with non-whitespace. -/
def tightL (v : List Char) : Prop :=
  v ≠ [] ∧ (∀ c, v.head? = some c → isPyWs c = false) ∧
    (∀ c, v.getLast? = some c → isPyWs c = false)

/-- The candidate a single pattern yields, as the source behaves: a string
result is the stripped first match, kept even when stripping empties it; a
tuple result is the stripped first group with non-empty trimmed content,
or no candidate at all. -/
def patCandidate (t : List Char) (p : Pat) : Option (List Char) :=
  match findallHead p t with
  | none => none
  | some (.str m) => some (pstrip m)
  | some (.tup gs) => (gs.find? (fun g => !(pstrip g).isEmpty)).map pstrip

/-- The candidate per the specification wording: only a NON-EMPTY trimmed
candidate counts, in the string case as well. -/
def patCandidateClaim (t : List Char) (p : Pat) : Option (List Char) :=
  match findallHead p t with
  | none => none
  | some (.str m) => if pstrip m = [] then none else some (pstrip m)
  | some (.tup gs) => (gs.find? (fun g => !(pstrip g).isEmpty)).map pstrip

/-- First produced candidate wins; later entries are never consulted. -/
def firstSome : List (Option (List Char)) → Option (List Char)
  | [] => none
  | some v :: _ => some v
  | none :: os => firstSome os

/-- The matcher as the specification describes it: iterate the patterns in
declaration order and return the first non-empty trimmed candidate, else
unmatched. -/
def matcherSpecClaim (t : List Char) (ps : List Pat) : Option (List Char) :=
  firstSome (ps.map (patCandidateClaim t))

/-- The matcher as the source behaves (amended reading): the first pattern
that produces a candidate decides the outcome, where a no-group or
one-group pattern produces its stripped candidate unconditionally. -/
def matcherSpecAm (t : List Char) (ps : List Pat) : Option (List Char) :=
  firstSome (ps.map (patCandidate t))

/-! ## List and `pstrip` lemmas -/

theorem mem_of_mem_dropWhileW {p : Char → Bool} {a : Char} {l : List Char}
    (h : a ∈ l.dropWhile p) : a ∈ l := by
  have hs := List.takeWhile_append_dropWhile (p := p) (l := l)
  rw [← hs]
  exact List.mem_append_right _ h

theorem dropWhile_head_not {p : Char → Bool} :
    ∀ {l : List Char} {c : Char} {t : List Char}, l.dropWhile p = c :: t → p c = false := by
  intro l
  induction l with
  | nil => intro c t h; simp [List.dropWhile] at h
  | cons a l ih =>
    intro c t h
    rw [List.dropWhile_cons] at h
    by_cases hp : p a = true
    · rw [if_pos hp] at h; exact ih h
    · rw [if_neg hp] at h
      cases h
      simpa using hp

theorem getLast?_append_right {s t : List Char} (h : t ≠ []) :
    (s ++ t).getLast? = t.getLast? := by
  obtain ⟨c, cs, hc⟩ : ∃ c cs, t.reverse = c :: cs := by
    cases ht : t.reverse with
    | nil => exact absurd (by simpa using congrArg List.reverse ht) h
    | cons c cs => exact ⟨c, cs, rfl⟩
  rw [← List.head?_reverse, List.reverse_append, hc, ← List.head?_reverse, hc]
  rfl

theorem getLast?_drop_of_lt : ∀ {l : List Char} {n : Nat}, n < l.length →
    (l.drop n).getLast? = l.getLast? := by
  intro l
  induction l with
  | nil => intro n h; simp at h
  | cons a l ih =>
    intro n h
    cases n with
    | zero => rfl
    | succ m =>
      have hm : m < l.length := by simpa using h
      have hl : l ≠ [] := by
        intro he; rw [he] at hm; simp at hm
      calc ((a :: l).drop (m + 1)).getLast? = (l.drop m).getLast? := rfl
        _ = l.getLast? := ih hm
        _ = ([a] ++ l).getLast? := (getLast?_append_right hl).symm
        _ = (a :: l).getLast? := rfl

theorem pstrip_eq_nil_iff {l : List Char} :
    pstrip l = [] ↔ ∀ c ∈ l, isPyWs c = true := by
  unfold pstrip dropTrail
  rw [List.reverse_eq_nil_iff, List.dropWhile_eq_nil_iff]
  constructor
  · intro h c hc
    have hsplit := List.takeWhile_append_dropWhile (p := isPyWs) (l := l)
    rw [← hsplit] at hc
    rcases List.mem_append.mp hc with h1 | h2
    · exact List.mem_takeWhile_imp h1
    · exact h (c) (List.mem_reverse.mpr h2)
  · intro h c hc
    exact h c (mem_of_mem_dropWhileW (List.mem_reverse.mp hc))

theorem pstrip_ne_nil_of_mem {l : List Char} {c : Char} (hc : c ∈ l)
    (hw : isPyWs c = false) : pstrip l ≠ [] := by
  intro h
  have h2 := pstrip_eq_nil_iff.mp h c hc
  rw [h2] at hw
  simp at hw

theorem pstrip_head_not {l : List Char} {c : Char}
    (h : (pstrip l).head? = some c) : isPyWs c = false := by
  set Y := l.dropWhile isPyWs with hY
  set Z := Y.reverse.dropWhile isPyWs with hZ
  have hps : pstrip l = Z.reverse := rfl
  rw [hps, List.head?_reverse] at h
  have hZne : Z ≠ [] := by
    intro he; rw [he] at h; exact Option.noConfusion h
  have hsplit := List.takeWhile_append_dropWhile (p := isPyWs) (l := Y.reverse)
  have h2 : Y.reverse.getLast? = some c := by
    rw [← hsplit, getLast?_append_right hZne]; exact h
  rw [List.getLast?_reverse] at h2
  cases hYc : Y with
  | nil => rw [hYc] at h2; exact Option.noConfusion h2
  | cons a t =>
    rw [hYc] at h2
    have hac : a = c := by simpa using h2
    subst hac
    exact dropWhile_head_not (hY.symm.trans hYc)

theorem pstrip_last_not {l : List Char} {c : Char}
    (h : (pstrip l).getLast? = some c) : isPyWs c = false := by
  set Y := l.dropWhile isPyWs with hY
  set Z := Y.reverse.dropWhile isPyWs with hZ
  have hps : pstrip l = Z.reverse := rfl
  rw [hps, List.getLast?_reverse] at h
  cases hZc : Z with
  | nil => rw [hZc] at h; exact Option.noConfusion h
  | cons a t =>
    rw [hZc] at h
    have hac : a = c := by simpa using h
    subst hac
    exact dropWhile_head_not (hZ.symm.trans hZc)

theorem pstrip_has_nonws {l : List Char} (h : pstrip l ≠ []) :
    ∃ c ∈ pstrip l, isPyWs c = false := by
  cases hc : pstrip l with
  | nil => exact absurd hc h
  | cons a t =>
    exact ⟨a, List.mem_cons_self a t, pstrip_head_not (l := l) (by rw [hc]; rfl)⟩

theorem ws_char_cases {c : Char} (h : isPyWs c = true) :
    c = ' ' ∨ c = '\t' ∨ c = '\n' ∨ c = '\r' ∨ c = '\x0b' ∨ c = '\x0c' := by
  have h2 : ((((c = ' ' ∨ c = '\t') ∨ c = '\n') ∨ c = '\r') ∨ c = '\x0b') ∨ c = '\x0c' := by
    simpa [isPyWs, Bool.or_eq_true, decide_eq_true_eq] using h
  tauto

theorem nonws_of_digit {c : Char} (h : isDigitC c = true) : isPyWs c = false := by
  cases hw : isPyWs c with
  | false => rfl
  | true =>
    rcases ws_char_cases hw with h2 | h2 | h2 | h2 | h2 | h2 <;> subst h2 <;>
      exact absurd h (by decide)

theorem nonws_of_alpha {c : Char} (h : isAlphaC c = true) : isPyWs c = false := by
  cases hw : isPyWs c with
  | false => rfl
  | true =>
    rcases ws_char_cases hw with h2 | h2 | h2 | h2 | h2 | h2 <;> subst h2 <;>
      exact absurd h (by decide)

theorem nonws_of_upper {c : Char} (h : isUpperAZ c = true) : isPyWs c = false := by
  cases hw : isPyWs c with
  | false => rfl
  | true =>
    rcases ws_char_cases hw with h2 | h2 | h2 | h2 | h2 | h2 <;> subst h2 <;>
      exact absurd h (by decide)

theorem nonws_of_tel {c : Char} (h : (isDigitC c || c = '+') = true) : isPyWs c = false := by
  have h2 : isDigitC c = true ∨ c = '+' := by simpa using h
  rcases h2 with h2 | h2
  · exact nonws_of_digit h2
  · subst h2; decide

theorem nonws_of_alnum {c : Char} (h : (isUpperAZ c || isDigitC c) = true) :
    isPyWs c = false := by
  have h2 : isUpperAZ c = true ∨ isDigitC c = true := by simpa using h
  rcases h2 with h2 | h2
  · exact nonws_of_upper h2
  · exact nonws_of_digit h2

theorem exists_getLast?_of_ne_nil {l : List Char} (h : l ≠ []) :
    ∃ e, l.getLast? = some e := by
  cases hr : l.reverse with
  | nil => exact absurd (by simpa using congrArg List.reverse hr) h
  | cons c cs => exact ⟨c, by rw [← List.head?_reverse, hr]; rfl⟩

theorem pstrip_tight {s : List Char} (h : pstrip s ≠ []) : tightL (pstrip s) :=
  ⟨h, fun _ hc => pstrip_head_not hc, fun _ hc => pstrip_last_not hc⟩

theorem tight_has_nonws {v : List Char} (h : tightL v) :
    ∃ c ∈ v, isPyWs c = false := by
  obtain ⟨hne, hh, _⟩ := h
  cases hv : v with
  | nil => exact absurd hv hne
  | cons a t => exact ⟨a, List.mem_cons_self a t, hh a (by rw [hv]; rfl)⟩

/-- The suffix kept by `dropWhile` after `drop` stays tight when the guard
of the boiler rewrites holds: it is nonempty, starts with non-whitespace
and keeps the last character of the original list. -/
theorem dropped_tail_tight {v : List Char} {n : Nat} (hv : tightL v)
    (hws : wsHead (v.drop n) = true) : tightL ((v.drop n).dropWhile isPyWs) := by
  obtain ⟨hne, _, hlast⟩ := hv
  have hdne : v.drop n ≠ [] := by
    intro he; rw [he] at hws; simp [wsHead] at hws
  have hn : n < v.length := by
    by_contra hle
    exact hdne (List.drop_eq_nil_iff.mpr (Nat.le_of_not_lt hle))
  obtain ⟨e, he⟩ := exists_getLast?_of_ne_nil hne
  have henws : isPyWs e = false := hlast e he
  have hde : (v.drop n).getLast? = some e := by
    rw [getLast?_drop_of_lt hn]; exact he
  have hmem : e ∈ v.drop n := List.mem_of_mem_getLast? hde
  have hR1ne : (v.drop n).dropWhile isPyWs ≠ [] := by
    intro hnil
    have := List.dropWhile_eq_nil_iff.mp hnil e hmem
    rw [this] at henws; simp at henws
  refine ⟨hR1ne, ?_, ?_⟩
  · intro c hc
    cases hR : (v.drop n).dropWhile isPyWs with
    | nil => exact absurd hR hR1ne
    | cons a t =>
      rw [hR] at hc
      have hac : a = c := by simpa using hc
      exact hac ▸ dropWhile_head_not hR
  · intro c hc
    have hsplit := List.takeWhile_append_dropWhile (p := isPyWs) (l := v.drop n)
    have h2 : (v.drop n).getLast? = ((v.drop n).dropWhile isPyWs).getLast? := by
      conv_lhs => rw [← hsplit]
      exact getLast?_append_right hR1ne
    rw [← h2, hde] at hc
    have : e = c := by simpa using hc
    exact this ▸ henws

theorem boilerDropPre_tight {v : List Char} (hv : tightL v) :
    tightL (boilerDropPre v) := by
  unfold boilerDropPre
  cases hf : boilerWords.find? (fun w => ciIsPre w v && wsHead (v.drop w.length)) with
  | none => exact hv
  | some w =>
    have hp := List.find?_some hf
    have hws : ciIsPre w v = true ∧ wsHead (v.drop w.length) = true := by simpa using hp
    exact dropped_tail_tight hv hws.2

theorem boilerDropSufCore_nonws {v : List Char} (hv : tightL v) :
    ∃ c ∈ boilerDropSufCore v, isPyWs c = false := by
  obtain ⟨hne, hh, hlast⟩ := hv
  cases hf : boilerWords.find?
      (fun w => ciIsPre w.reverse v.reverse && wsHead (v.reverse.drop w.length)) with
  | none =>
    have hv2 : boilerDropSufCore v = v := by
      simp only [boilerDropSufCore]; rw [hf]
    rw [hv2]
    exact tight_has_nonws ⟨hne, hh, hlast⟩
  | some w =>
    have hv2 : boilerDropSufCore v = ((v.reverse.drop w.length).dropWhile isPyWs).reverse := by
      simp only [boilerDropSufCore]; rw [hf]
    rw [hv2]
    have hp := List.find?_some hf
    have hws : ciIsPre w.reverse v.reverse = true ∧ wsHead (v.reverse.drop w.length) = true := by
      simpa using hp
    have hrv : tightL v.reverse := by
      refine ⟨by simpa using hne, ?_, ?_⟩
      · intro c hc
        rw [List.head?_reverse] at hc
        exact hlast c hc
      · intro c hc
        rw [List.getLast?_reverse] at hc
        exact hh c hc
    have ht := dropped_tail_tight hrv hws.2
    obtain ⟨c, hcmem, hcnws⟩ := tight_has_nonws ht
    exact ⟨c, List.mem_reverse.mpr hcmem, hcnws⟩

theorem boilerDropSuf_eq_core {v : List Char} (hv : tightL v) :
    boilerDropSuf v = boilerDropSufCore v := by
  obtain ⟨hne, _, hlast⟩ := hv
  obtain ⟨e, he⟩ := exists_getLast?_of_ne_nil hne
  have henws : isPyWs e = false := hlast e he
  have hnl : ¬ e = '\n' := by
    intro h2
    rw [h2] at henws
    exact absurd henws (by decide)
  unfold boilerDropSuf withEol
  rw [he]
  simp [hnl]

/-- Any accepted value of the ragione_sociale branch keeps a
non-whitespace character. -/
theorem ragione_branch_nonws {v : List Char} (hv : tightL v) :
    ∃ c ∈ boilerDropSuf (boilerDropPre v), isPyWs c = false := by
  have ht1 := boilerDropPre_tight hv
  rw [boilerDropSuf_eq_core ht1]
  exact boilerDropSufCore_nonws ht1

/-! ## Shape of the matcher output and of the cleaned map -/

theorem firstGoodGroup_shape : ∀ {gs : List (List Char)} {v : List Char},
    firstGoodGroup gs = some v → ∃ g, v = pstrip g := by
  intro gs
  induction gs with
  | nil => intro v h; simp [firstGoodGroup] at h
  | cons g gs ih =>
    intro v h
    rw [firstGoodGroup] at h
    split at h
    · exact ⟨g, (Option.some.inj h).symm⟩
    · exact ih h

/-- Every value `_extract_field` returns is the `strip` of some string. -/
theorem extract_field_shape : ∀ {ps : List Pat} {t v : List Char},
    extract_field t ps = some v → ∃ s, v = pstrip s := by
  intro ps
  induction ps with
  | nil => intro t v h; simp [extract_field] at h
  | cons p ps ih =>
    intro t v h
    simp only [extract_field] at h
    split at h
    · exact ih h
    · exact ⟨_, (Option.some.inj h).symm⟩
    · split at h
      · rename_i g hfg
        cases h
        exact firstGoodGroup_shape hfg
      · exact ih h

/-- Membership in the cleaned map comes from a nonempty raw value that the
per-key branch accepted. -/
theorem clean_mem : ∀ {data : List (String × Option (List Char))} {k : String}
    {w : List Char}, (k, w) ∈ clean_extracted_data data →
    ∃ v, (k, some v) ∈ data ∧ v ≠ [] ∧ cleanPair k v = some w := by
  intro data
  induction data with
  | nil => intro k w h; simp [clean_extracted_data] at h
  | cons kv rest ih =>
    intro k w h
    obtain ⟨k0, ov⟩ := kv
    cases ov with
    | none =>
      rw [clean_extracted_data] at h
      obtain ⟨v, hm, hv⟩ := ih h
      exact ⟨v, List.mem_cons_of_mem _ hm, hv⟩
    | some v0 =>
      rw [clean_extracted_data] at h
      by_cases hz : v0 = []
      · rw [if_pos hz] at h
        obtain ⟨v, hm, hv⟩ := ih h
        exact ⟨v, List.mem_cons_of_mem _ hm, hv⟩
      · rw [if_neg hz] at h
        cases hcp : cleanPair k0 v0 with
        | none =>
          rw [hcp] at h
          obtain ⟨v, hm, hv⟩ := ih h
          exact ⟨v, List.mem_cons_of_mem _ hm, hv⟩
        | some w0 =>
          rw [hcp] at h
          rcases List.mem_cons.mp h with he | hm
          · obtain ⟨hk, hw⟩ := Prod.mk.injEq .. ▸ he
            subst hk
            subst hw
            exact ⟨v0, List.mem_cons_self _ _, hz, hcp⟩
          · obtain ⟨v, hm2, hv⟩ := ih hm
            exact ⟨v, List.mem_cons_of_mem _ hm2, hv⟩

theorem lookup_mem : ∀ {l : List (String × List Char)} {k : String} {w : List Char},
    List.lookup k l = some w → (k, w) ∈ l := by
  intro l
  induction l with
  | nil => intro k w h; simp [List.lookup] at h
  | cons kv rest ih =>
    intro k w h
    obtain ⟨k0, w0⟩ := kv
    rw [List.lookup] at h
    cases hbeq : (k == k0) with
    | true =>
      rw [hbeq] at h
      cases h
      have : k = k0 := eq_of_beq hbeq
      subst this
      exact List.mem_cons_self _ _
    | false =>
      rw [hbeq] at h
      exact List.mem_cons_of_mem _ (ih h)

/-- Accepted-value extraction from a guarded option equation. -/
theorem ite_some_inv {c : Prop} [Decidable c] {a w : List Char}
    (h : (if c then some a else none) = some w) : c ∧ a = w := by
  split at h
  · exact ⟨by assumption, Option.some.inj h⟩
  · exact absurd h (by simp)

/-- The central cleaning invariant: any value the per-key branch accepts,
applied to a stripped nonempty raw value, has nonempty stripped content. -/
theorem cleanPair_result {k : String} {v w : List Char} (hs : ∃ s, v = pstrip s)
    (hne : v ≠ []) (hcp : cleanPair k v = some w) : pstrip w ≠ [] := by
  obtain ⟨s, hsv⟩ := hs
  have htv : tightL v := hsv ▸ pstrip_tight (hsv ▸ hne)
  by_cases hk1 : k = "ragione_sociale"
  · rw [hk1] at hcp
    have hval : cleanPair "ragione_sociale" v =
        some (pstrip (boilerDropSuf (boilerDropPre v))) := rfl
    rw [hval] at hcp
    have hwv := Option.some.inj hcp
    obtain ⟨c, hcm, hcnws⟩ := ragione_branch_nonws htv
    obtain ⟨c2, hc2m, hc2nws⟩ := pstrip_has_nonws (pstrip_ne_nil_of_mem hcm hcnws)
    exact pstrip_ne_nil_of_mem (hwv ▸ hc2m) hc2nws
  by_cases hk2 : k = "partita_iva"
  · rw [hk2] at hcp
    have hval : cleanPair "partita_iva" v =
        (if (v.filter isDigitC).length = 11 then some (v.filter isDigitC) else none) := rfl
    rw [hval] at hcp
    obtain ⟨hlen, hwv⟩ := ite_some_inv hcp
    have hwne : v.filter isDigitC ≠ [] := by
      intro h0; rw [h0] at hlen; simp at hlen
    obtain ⟨a, ha⟩ := List.exists_mem_of_ne_nil _ hwne
    exact pstrip_ne_nil_of_mem (hwv ▸ ha) (nonws_of_digit (List.mem_filter.mp ha).2)
  by_cases hk3 : k = "codice_fiscale"
  · rw [hk3] at hcp
    have hval : cleanPair "codice_fiscale" v =
        (if ((v.map upA).filter (fun c => isUpperAZ c || isDigitC c)).length = 11 ∨
            ((v.map upA).filter (fun c => isUpperAZ c || isDigitC c)).length = 16 then
          some ((v.map upA).filter (fun c => isUpperAZ c || isDigitC c)) else none) := rfl
    rw [hval] at hcp
    obtain ⟨hlen, hwv⟩ := ite_some_inv hcp
    have hwne : (v.map upA).filter (fun c => isUpperAZ c || isDigitC c) ≠ [] := by
      intro h0
      rcases hlen with h2 | h2 <;> rw [h0] at h2 <;> simp at h2
    obtain ⟨a, ha⟩ := List.exists_mem_of_ne_nil _ hwne
    exact pstrip_ne_nil_of_mem (hwv ▸ ha) (nonws_of_alnum (List.mem_filter.mp ha).2)
  by_cases hk4 : k = "cap"
  · rw [hk4] at hcp
    have hval : cleanPair "cap" v =
        (if (v.filter isDigitC).length = 5 then some (v.filter isDigitC) else none) := rfl
    rw [hval] at hcp
    obtain ⟨hlen, hwv⟩ := ite_some_inv hcp
    have hwne : v.filter isDigitC ≠ [] := by
      intro h0; rw [h0] at hlen; simp at hlen
    obtain ⟨a, ha⟩ := List.exists_mem_of_ne_nil _ hwne
    exact pstrip_ne_nil_of_mem (hwv ▸ ha) (nonws_of_digit (List.mem_filter.mp ha).2)
  by_cases hk5 : k = "provincia"
  · rw [hk5] at hcp
    have hval : cleanPair "provincia" v =
        (if (pstrip (v.map upA)).length = 2 ∧ (pstrip (v.map upA)).all isAlphaC then
          some (pstrip (v.map upA)) else none) := rfl
    rw [hval] at hcp
    obtain ⟨⟨hlen, hall⟩, hwv⟩ := ite_some_inv hcp
    have hwne : pstrip (v.map upA) ≠ [] := by
      intro h0; rw [h0] at hlen; simp at hlen
    obtain ⟨a, ha⟩ := List.exists_mem_of_ne_nil _ hwne
    exact pstrip_ne_nil_of_mem (hwv ▸ ha) (nonws_of_alpha (List.all_eq_true.mp hall a ha))
  by_cases hk6 : k = "email"
  · rw [hk6] at hcp
    have hval : cleanPair "email" v =
        (if ((emailLabelDrop (pstrip v)).takeWhile (fun c => !isSplitC c)).contains '@' ∧
            ((emailLabelDrop (pstrip v)).takeWhile (fun c => !isSplitC c)).contains '.' then
          some ((emailLabelDrop (pstrip v)).takeWhile (fun c => !isSplitC c)) else none) := rfl
    rw [hval] at hcp
    obtain ⟨⟨hat, _⟩, hwv⟩ := ite_some_inv hcp
    have hmem : '@' ∈ (emailLabelDrop (pstrip v)).takeWhile (fun c => !isSplitC c) :=
      List.elem_iff.mp hat
    exact pstrip_ne_nil_of_mem (hwv ▸ hmem) (by decide)
  by_cases hk7 : k = "citta"
  · rw [hk7] at hcp
    have hval : cleanPair "citta" v =
        (if noiseWords.any (fun w => isSubL w (lowerL (pstrip v))) then none
         else some (pstrip v)) := rfl
    rw [hval] at hcp
    split at hcp
    · exact absurd hcp (by simp)
    · have hwv := Option.some.inj hcp
      obtain ⟨c, hcm, hcnws⟩ := tight_has_nonws htv
      obtain ⟨c2, hc2m, hc2nws⟩ := pstrip_has_nonws (pstrip_ne_nil_of_mem hcm hcnws)
      exact pstrip_ne_nil_of_mem (hwv ▸ hc2m) hc2nws
  by_cases hk8 : k = "telefono"
  · rw [hk8] at hcp
    have hval : cleanPair "telefono" v =
        (if 6 ≤ (v.filter (fun c => isDigitC c || c = '+')).length then
          some (v.filter (fun c => isDigitC c || c = '+')) else none) := rfl
    rw [hval] at hcp
    obtain ⟨hlen, hwv⟩ := ite_some_inv hcp
    have hwne : v.filter (fun c => isDigitC c || c = '+') ≠ [] := by
      intro h0; rw [h0] at hlen; simp at hlen
    obtain ⟨a, ha⟩ := List.exists_mem_of_ne_nil _ hwne
    exact pstrip_ne_nil_of_mem (hwv ▸ ha)
      (nonws_of_tel (by simpa using (List.mem_filter.mp ha).2))
  by_cases hk9 : k = "pec"
  · rw [hk9] at hcp
    have hval : cleanPair "pec" v =
        (if v.contains '@' ∧ v.contains '.' then some (pstrip (lowerL v)) else none) := rfl
    rw [hval] at hcp
    obtain ⟨⟨hat, _⟩, hwv⟩ := ite_some_inv hcp
    have hmem : '@' ∈ v := List.elem_iff.mp hat
    have hmem2 : '@' ∈ lowerL v := List.mem_map.mpr ⟨'@', hmem, by decide⟩
    obtain ⟨c2, hc2m, hc2nws⟩ := pstrip_has_nonws (pstrip_ne_nil_of_mem hmem2 (by decide))
    exact pstrip_ne_nil_of_mem (hwv ▸ hc2m) hc2nws
  · -- every remaining key takes the generic branch
    have hor : ¬ (k = "email" ∨ k = "pec") := not_or.mpr ⟨hk6, hk9⟩
    have hval : cleanPair k v =
        (if pstrip (collapseWs v) = [] then none else some (pstrip (collapseWs v))) := by
      unfold cleanPair
      rw [if_neg hk1, if_neg hk2, if_neg hk3, if_neg hk4, if_neg hk5, if_neg hk6,
        if_neg hk7, if_neg hk8, if_neg hor]
    rw [hval] at hcp
    split at hcp
    · exact absurd hcp (by simp)
    · have hwv := Option.some.inj hcp
      obtain ⟨c2, hc2m, hc2nws⟩ := pstrip_has_nonws (by assumption)
      exact pstrip_ne_nil_of_mem (hwv ▸ hc2m) hc2nws

/-- Every value present in the output of `extract_company_info` has
nonempty stripped content. -/
theorem extract_values_nonws {t : List Char} {k : String} {w : List Char}
    (h : (k, w) ∈ extract_company_info t) : pstrip w ≠ [] := by
  have h2 : (k, w) ∈ clean_extracted_data
      (patternsTable.map (fun kv => (kv.1, extract_field (normalize_text t) kv.2))) := by
    simpa [extract_company_info] using h
  obtain ⟨v, hvmem, hvne, hcp⟩ := clean_mem h2
  obtain ⟨kv, _, heq⟩ := List.mem_map.mp hvmem
  have hef : extract_field (normalize_text t) kv.2 = some v := by
    have := (Prod.mk.injEq _ _ _ _).mp heq
    exact this.2
  exact cleanPair_result (extract_field_shape hef) hvne hcp

/-! ## Claim theorems -/

theorem firstGoodGroup_eq_find (gs : List (List Char)) :
    firstGoodGroup gs = (gs.find? (fun g => !(pstrip g).isEmpty)).map pstrip := by
  induction gs with
  | nil => rfl
  | cons g gs ih =>
    rw [firstGoodGroup, List.find?]
    by_cases hpg : pstrip g = []
    · have hc1 : ¬ (g ≠ [] ∧ pstrip g ≠ []) := by
        intro hand; exact hand.2 hpg
      have hc2 : (!(pstrip g).isEmpty) = false := by
        rw [hpg]; rfl
      rw [if_neg hc1, hc2]
      exact ih
    · have hgne : g ≠ [] := by
        intro h0; rw [h0] at hpg; exact hpg rfl
      have hc2 : (!(pstrip g).isEmpty) = true := by
        cases hp2 : pstrip g with
        | nil => exact absurd hp2 hpg
        | cons a t => rfl
      rw [if_pos ⟨hgne, hpg⟩, hc2]
      rfl

/-- Claim C1 (amended): for every field pattern list and every text, the
matcher returns the candidate of the first pattern that yields one — where
a no-group or single-group pattern yields its stripped first match
unconditionally (even when it strips to empty), and a multi-group pattern
yields the first group with non-empty trimmed content or falls through —
and returns unmatched only when no pattern yields a candidate. -/
theorem extract_field_first_candidate (t : List Char) :
    ∀ ps : List Pat, extract_field t ps = matcherSpecAm t ps := by
  intro ps
  induction ps with
  | nil => rfl
  | cons p ps ih =>
    rw [matcherSpecAm, List.map_cons]
    cases hfa : findallHead p t with
    | none =>
      have hpc : patCandidate t p = none := by rw [patCandidate, hfa]
      rw [hpc, firstSome, extract_field, hfa]
      exact ih
    | some mr =>
      cases mr with
      | str m =>
        have hpc : patCandidate t p = some (pstrip m) := by rw [patCandidate, hfa]
        rw [hpc, firstSome, extract_field, hfa]
      | tup gs =>
        have hpc : patCandidate t p = firstGoodGroup gs := by
          simp only [patCandidate, hfa]
          exact (firstGoodGroup_eq_find gs).symm
        rw [hpc]
        cases hfg : firstGoodGroup gs with
        | none =>
          rw [firstSome]
          have hlhs : extract_field t (p :: ps) = extract_field t ps := by
            simp only [extract_field, hfa, hfg]
          rw [hlhs]
          exact ih
        | some g =>
          rw [firstSome]
          simp only [extract_field, hfa, hfg]

/-- Claim C1 (counterexample): on the telefono pattern list of this program
and the text `"Tel: \nTelefono: 123456"`, the matcher of the source returns
the empty string (the first matching pattern captured only a newline, which
strips to empty) instead of skipping to the later pattern whose candidate
is `"123456"`, so the first-non-empty-candidate reading of the claim is
false. -/
theorem extract_field_claim_counterexample :
    extract_field (tl "Tel: \nTelefono: 123456") patsTelefono = some [] ∧
    matcherSpecClaim (tl "Tel: \nTelefono: 123456") patsTelefono = some (tl "123456") ∧
    extract_field (tl "Tel: \nTelefono: 123456") patsTelefono ≠
      matcherSpecClaim (tl "Tel: \nTelefono: 123456") patsTelefono := by
  refine ⟨by decide, by decide, ?_⟩
  intro h
  rw [show extract_field (tl "Tel: \nTelefono: 123456") patsTelefono = some [] from by decide,
    show matcherSpecClaim (tl "Tel: \nTelefono: 123456") patsTelefono = some (tl "123456")
      from by decide] at h
  exact absurd (Option.some.inj h) (by decide)

/-- Claim C2: whenever the result of `extract_company_info` contains the
key partita_iva, its value is exactly 11 decimal digits. -/
theorem partita_iva_eleven_digits (t : List Char) (w : List Char)
    (h : List.lookup "partita_iva" (extract_company_info t) = some w) :
    w.length = 11 ∧ w.all isDigitC = true := by
  have hmem := lookup_mem h
  have h2 : ("partita_iva", w) ∈ clean_extracted_data
      (patternsTable.map (fun kv => (kv.1, extract_field (normalize_text t) kv.2))) := by
    simpa [extract_company_info] using hmem
  obtain ⟨v, _, _, hcp⟩ := clean_mem h2
  have hval : cleanPair "partita_iva" v =
      (if (v.filter isDigitC).length = 11 then some (v.filter isDigitC) else none) := rfl
  rw [hval] at hcp
  obtain ⟨hlen, hwv⟩ := ite_some_inv hcp
  constructor
  · rw [← hwv]; exact hlen
  · rw [← hwv]
    exact List.all_eq_true.mpr (fun a ha => (List.mem_filter.mp ha).2)

theorem partita_iva_eleven_digits_witness :
    List.lookup "partita_iva"
        (extract_company_info (tl "PARTITA IVA\n01234567890\nCAP: 20100")) =
      some (tl "01234567890") ∧
    ((tl "01234567890").length = 11 ∧ (tl "01234567890").all isDigitC = true) :=
  ⟨by decide, partita_iva_eleven_digits (tl "PARTITA IVA\n01234567890\nCAP: 20100")
    (tl "01234567890") (by decide)⟩

/-- Claim C3: no key present in the result of `extract_company_info` has an
empty or whitespace-only value. -/
theorem no_blank_values (t : List Char) (k : String) (w : List Char)
    (h : List.lookup k (extract_company_info t) = some w) : pstrip w ≠ [] :=
  extract_values_nonws (lookup_mem h)

theorem no_blank_values_witness :
    List.lookup "telefono" (extract_company_info (tl "Tel. 02-12345678")) =
      some (tl "0212345678") ∧ pstrip (tl "0212345678") ≠ [] :=
  ⟨by decide, no_blank_values (tl "Tel. 02-12345678") "telefono"
    (tl "0212345678") (by decide)⟩

/-- Claim C4 (counterexample): the text `"EMAIL CERTIFICATA INFO@PEC.IT"`
matches CertifiedEmail with the value `"INFO@PEC.IT"`, and the cleaner
stores it unchanged — not lowercased — so the claimed lowercase-and-trim
rule for CertifiedEmail is false on the code. -/
theorem email_certificata_not_lowered :
    List.lookup "email_certificata"
        (extract_company_info (tl "EMAIL CERTIFICATA INFO@PEC.IT")) =
      some (tl "INFO@PEC.IT") ∧
    tl "INFO@PEC.IT" ≠ pstrip (lowerL (tl "INFO@PEC.IT")) := by
  exact ⟨by decide, by decide⟩

/-- Claim C4 (amended): the Pec cleaner lowercases and trims and accepts
exactly when the value contains "@" and "."; the CertifiedEmail cleaner
instead takes the generic branch — whitespace-collapse and trim, accepted
exactly when nonempty — with no lowercasing and no "@"/"." test. -/
theorem pec_and_certificata_cleaning (v w : List Char) :
    (cleanPair "pec" v = some w ↔
      (v.contains '@' = true ∧ v.contains '.' = true ∧ w = pstrip (lowerL v))) ∧
    (cleanPair "email_certificata" v = some w ↔
      (pstrip (collapseWs v) ≠ [] ∧ w = pstrip (collapseWs v))) := by
  constructor
  · have hval : cleanPair "pec" v =
        (if v.contains '@' ∧ v.contains '.' then some (pstrip (lowerL v)) else none) := rfl
    rw [hval]
    constructor
    · intro h
      obtain ⟨⟨h1, h2⟩, hwv⟩ := ite_some_inv h
      exact ⟨h1, h2, hwv.symm⟩
    · rintro ⟨h1, h2, rfl⟩
      rw [if_pos ⟨h1, h2⟩]
  · have hval : cleanPair "email_certificata" v =
        (if pstrip (collapseWs v) = [] then none else some (pstrip (collapseWs v))) := rfl
    rw [hval]
    constructor
    · intro h
      split at h
      · exact absurd h (by simp)
      · exact ⟨by assumption, (Option.some.inj h).symm⟩
    · rintro ⟨h1, rfl⟩
      rw [if_neg h1]

/-- Claim C5: the aggregation appends a company record (with the source
name and the timestamp) exactly when the extracted field map is nonempty,
and in every call rewrites the total-documents counter to the current
document count and the last-updated timestamp. -/
theorem update_info_base_spec (now : Nat) (t fn : List Char) (ib : InfoBase)
    (docs : List Document) :
    update_info_base now (extract_company_info t) fn ib docs =
      { extracted_companies :=
          if extract_company_info t = [] then ib.extracted_companies
          else ib.extracted_companies ++ [⟨fn, now, extract_company_info t⟩],
        total_documents := docs.length,
        last_updated := now } := by
  by_cases hci : extract_company_info t = []
  · rw [update_info_base, if_neg, if_pos hci]
    intro hand
    exact hand.1 hci
  · have hany : (extract_company_info t).any (fun kv => kv.2 ≠ []) = true := by
      cases hx : extract_company_info t with
      | nil => exact absurd hx hci
      | cons kv rest =>
        have hmem : kv ∈ extract_company_info t := by
          rw [hx]; exact List.mem_cons_self _ _
        have hnws : pstrip kv.2 ≠ [] := extract_values_nonws (k := kv.1) (by
          simpa using hmem)
        have hkvne : kv.2 ≠ [] := by
          intro h0; rw [h0] at hnws; exact hnws rfl
        refine List.any_eq_true.mpr ⟨kv, List.mem_cons_self _ _, ?_⟩
        simpa using hkvne
    rw [update_info_base, if_pos ⟨hci, hany⟩, if_neg hci]

/-- Claim C6: the end-to-end examples — the two-line VAT and postal-code
text yields partita_iva 01234567890 and cap 20100, and the Tel. example
yields the stripped telefono 0212345678. -/
theorem end_to_end_examples :
    List.lookup "partita_iva"
        (extract_company_info (tl "PARTITA IVA\n01234567890\nCAP: 20100")) =
      some (tl "01234567890") ∧
    List.lookup "cap"
        (extract_company_info (tl "PARTITA IVA\n01234567890\nCAP: 20100")) =
      some (tl "20100") ∧
    List.lookup "telefono" (extract_company_info (tl "Tel. 02-12345678")) =
      some (tl "0212345678") := by
  exact ⟨by decide, by decide, by decide⟩

/-- Claim C7: the whole extraction pipeline is a total function of the
input text, and the empty text yields the empty field map. -/
theorem empty_text_empty_map : extract_company_info (tl "") = [] := by decide

/-- Claim C8: after the session-clear operation the state holds no company
records and carries the freshly generated session token, which differs
from the previous one. -/
theorem clear_session_spec (newId : Nat) (ts : Transcripts)
    (hfresh : newId ≠ ts.session_id) :
    companyRecords (clear_session newId ts) = [] ∧
    (clear_session newId ts).documents = [] ∧
    (clear_session newId ts).session_id = newId ∧
    (clear_session newId ts).session_id ≠ ts.session_id :=
  ⟨rfl, rfl, rfl, hfresh⟩

theorem clear_session_spec_witness :
    (1 : Nat) ≠ (0 : Nat) ∧
    (companyRecords (clear_session 1 ⟨some ⟨[], 0, 0⟩, [], 0⟩) = [] ∧
     (clear_session 1 ⟨some ⟨[], 0, 0⟩, [], 0⟩).documents = [] ∧
     (clear_session 1 ⟨some ⟨[], 0, 0⟩, [], 0⟩).session_id = 1 ∧
     (clear_session 1 ⟨some ⟨[], 0, 0⟩, [], 0⟩).session_id ≠
       (⟨some ⟨[], 0, 0⟩, [], 0⟩ : Transcripts).session_id) :=
  ⟨by decide, clear_session_spec 1 ⟨some ⟨[], 0, 0⟩, [], 0⟩ (by decide)⟩

/-- Claim C9: the lone standalone five-digit text "12345" extracts exactly
one field, cap = "12345", through the bare word-boundary fallback pattern. -/
theorem bare_five_digits_cap :
    extract_company_info (tl "12345") = [("cap", tl "12345")] := by decide

/-- Claim C10: for "info@company.email" the cleaner strips the trailing
label word "email" — here a legitimate top-level domain — leaving
email = "info@company.", which is still accepted. -/
theorem email_label_eats_tld :
    extract_company_info (tl "info@company.email") = [("email", tl "info@company.")] := by
  decide

end DocProc

